import Mathlib

/-!
Verification of the rail-network simulation core (`trains.py`).

The Python source is shallowly embedded below:
* a station catalog (Python `dict` of `Station` objects) becomes an
  association list `List (String × Station)` with dict-style insert/lookup;
* the derived connection graph becomes `List (String × List String)`;
* `random` draws become explicit oracles (index functions), so every
  possible sequence of draws is quantified over;
* Python exceptions (`KeyError` on unknown station names, `IndexError` on
  choosing from an empty sequence) become `Except`/`Option` failures.
-/

namespace Trains

/-- A connection entry `(target_station_name, line_id, direction)`,
matching the tuples stored in `Station.connections` in the source. -/
abbrev Conn := String × String × String

/-- The `Station` class: name, delay constant, ordered connection list. -/
structure Station where
  name : String
  delay_constant : Rat
  connections : List Conn
deriving DecidableEq, Repr

/-- Station catalogs are Python dicts keyed by station name. -/
abbrev Catalog := List (String × Station)

/-- Dict lookup: first (unique) binding for the key. -/
def dictGet? {α : Type} (d : List (String × α)) (k : String) : Option α :=
  (d.find? (fun p => p.1 == k)).map Prod.snd

/-- Dict assignment: replace the binding in place if the key exists
(Python dicts keep the original insertion position), else append. -/
def dictSet {α : Type} (d : List (String × α)) (k : String) (v : α) : List (String × α) :=
  match d with
  | [] => [(k, v)]
  | (k', v') :: rest => if k' == k then (k, v) :: rest else (k', v') :: dictSet rest k v

/-- The connection list of station `s` in a catalog (empty if absent;
the Python source would raise `KeyError` there, so theorems about the
program only quantify over catalogs containing the stations involved). -/
def connsOf (cat : Catalog) (s : String) : List Conn :=
  ((dictGet? cat s).map Station.connections).getD []

/-! ### Connection graph and breadth-first search (`Station.build_graph`,
`Station.breadth_first_pathfind`) -/

/-- The derived connection graph: station name ↦ neighbour names. -/
abbrev Graph := List (String × List String)

/-- The key list of a graph dict. -/
def keys (g : Graph) : List String := g.map Prod.fst

/-- Lookup of `graph[station]` (empty if absent; Python raises `KeyError`, so
theorems assume `Closed` graphs where the lookup always succeeds). -/
def neighbors (g : Graph) (s : String) : List String :=
  match g.find? (fun p => p.1 == s) with
  | some p => p.2
  | none => []

/-- A graph is closed when every listed neighbour is itself a key; all
graphs produced by `Station.build_graph` on valid catalogs are closed. -/
def Closed (g : Graph) : Prop := ∀ p ∈ g, ∀ v ∈ p.2, v ∈ keys g

instance (g : Graph) : Decidable (Closed g) := by
  unfold Closed; infer_instance

/-- Model of `Station.build_graph`: strip lines/directions from a catalog. -/
def Station.build_graph (cat : Catalog) : Graph :=
  cat.map (fun p => (p.1, p.2.connections.map (fun c => c.1)))

/-- Walk predicate: `walkB g n u v` holds when the graph has a walk of exactly `n` edges
from `u` to `v`; the "true minimum hop count" of the spec is the least
such `n`. -/
def walkB (g : Graph) : Nat → String → String → Bool
  | 0, u, v => u == v
  | n + 1, u, v => (neighbors g u).any (fun w => walkB g n w v)

/-- The loop of `breadth_first_pathfind`.  Queue entries are the partial
paths, stored in reverse (most recently visited station first), so the
Python `search_path[-1]` becomes the head.  The station is marked
explored only after all its outgoing edges are enqueued, and the search
returns as soon as an extension reaches `goal`, exactly as in the
source; the extensions enqueued before that return are simply discarded
with the rest of the queue. -/
def bfsAux (g : Graph) (goal : String) : List String → List (List String) → List String
  | _, [] => []
  | explored, p :: rest =>
    if p.headD "" ∈ explored then
      bfsAux g goal explored rest
    else if goal ∈ neighbors g (p.headD "") then
      goal :: p
    else
      bfsAux g goal (explored ++ [p.headD ""])
        (rest ++ (neighbors g (p.headD "")).map (fun w => w :: p))
termination_by explored queue =>
  (((keys g).filter (fun k => ¬ k ∈ explored)).length, queue.length)
decreasing_by
  · apply Prod.Lex.right
    simp
  · rename_i hexp hgoal
    by_cases hk : p.headD "" ∈ keys g
    · apply Prod.Lex.left
      have h1 : ((keys g).filter (fun k => ¬ k ∈ explored ++ [p.headD ""])) =
          (((keys g).filter (fun k => ¬ k ∈ explored)).filter (fun k => ¬ k = p.headD "")) := by
        rw [List.filter_filter]
        apply List.filter_congr
        intro a _
        simp [List.mem_append, Bool.and_comm]
      rw [h1]
      have h2 : p.headD "" ∈ (keys g).filter (fun k => ¬ k ∈ explored) := by
        simp only [List.mem_filter]
        exact ⟨hk, by simpa using hexp⟩
      apply List.length_filter_lt_length_iff_exists.mpr
      exact ⟨p.headD "", h2, by simp⟩
    · have hns : neighbors g (p.headD "") = [] := by
        unfold neighbors
        cases hfind : g.find? (fun q => q.1 == p.headD "") with
        | none => rfl
        | some q =>
          exfalso
          have := List.find?_some hfind
          have hmemq := List.mem_of_find?_eq_some hfind
          apply hk
          simp only [beq_iff_eq] at this
          rw [← this]
          exact List.mem_map_of_mem Prod.fst hmemq
      have hfilter : ((keys g).filter (fun k => ¬ k ∈ explored ++ [p.headD ""])) =
          ((keys g).filter (fun k => ¬ k ∈ explored)) := by
        apply List.filter_congr
        intro a ha
        have : a ≠ p.headD "" := fun h => hk (h ▸ ha)
        simp only [List.mem_append, List.mem_singleton]
        simp only [List.headD_eq_head?_getD] at this
        simp [this]
      rw [hfilter, hns]
      apply Prod.Lex.right
      simp

/-- Model of `Station.breadth_first_pathfind`: run the loop from `[[start]]` with
nothing explored; un-reverse the result (our queue stores paths
reversed). An empty result models the Python `return queue` fall-through. -/
def Station.breadth_first_pathfind (g : Graph) (start goal : String) : List String :=
  (bfsAux g goal [] [[start]]).reverse

lemma walkB_succ {g : Graph} {n : Nat} {u v : String} :
    walkB g (n + 1) u v = true ↔ ∃ w ∈ neighbors g u, walkB g n w v = true := by
  simp [walkB, List.any_eq_true]

lemma walkB_zero {g : Graph} {u v : String} : walkB g 0 u v = true ↔ u = v := by
  simp [walkB]

/-- A walk of `n + 1` edges decomposes as a walk of `n` edges followed by
one edge. -/
lemma walkB_snoc {g : Graph} : ∀ {n : Nat} {u v : String},
    walkB g (n + 1) u v = true ↔ ∃ w, walkB g n u w = true ∧ v ∈ neighbors g w := by
  intro n
  induction n with
  | zero =>
    intro u v
    rw [walkB_succ]
    constructor
    · rintro ⟨w, hw, h0⟩
      rw [walkB_zero] at h0
      exact ⟨u, by rw [walkB_zero], h0 ▸ hw⟩
    · rintro ⟨w, h0, hv⟩
      rw [walkB_zero] at h0
      exact ⟨v, h0 ▸ hv, by rw [walkB_zero]⟩
  | succ n ih =>
    intro u v
    rw [walkB_succ]
    constructor
    · rintro ⟨w, hw, hwalk⟩
      obtain ⟨x, hx, hv⟩ := ih.mp hwalk
      exact ⟨x, walkB_succ.mpr ⟨w, hw, hx⟩, hv⟩
    · rintro ⟨x, hwalk, hv⟩
      obtain ⟨w, hw, hx⟩ := walkB_succ.mp hwalk
      exact ⟨w, hw, ih.mpr ⟨x, hx, hv⟩⟩

/-- Queue entries of the search are valid reversed paths: nonempty, ending
(in reverse) at `start`, each station adjacent to its predecessor. -/
def ValidPath (g : Graph) (start : String) (p : List String) : Prop :=
  p ≠ [] ∧ p.getLast? = some start ∧ List.Chain' (fun x y => x ∈ neighbors g y) p

/-- A valid reversed path of `k + 1` stations is a walk of `k` hops from
`start` to its head. -/
lemma validPath_walk {g : Graph} {start : String} : ∀ {p : List String},
    ValidPath g start p → walkB g (p.length - 1) start (p.headD "") = true := by
  intro p
  induction p with
  | nil => intro h; exact absurd rfl h.1
  | cons x t ih =>
    intro h
    match t with
    | [] =>
      have : x = start := by simpa using h.2.1
      simp [walkB, this]
    | y :: t' =>
      have hchain := h.2.2
      rw [List.chain'_cons] at hchain
      have hvalid : ValidPath g start (y :: t') :=
        ⟨by simp, by simpa [List.getLast?_cons] using h.2.1, hchain.2⟩
      have hw := ih hvalid
      have hlen : (x :: y :: t').length - 1 = ((y :: t').length - 1) + 1 := by
        simp
      rw [hlen]
      exact walkB_snoc.mpr ⟨y, by simpa using hw, hchain.1⟩

/-- If the explored set is closed under taking edges and contains every
station within `N` hops of `start`, it contains every reachable station. -/
lemma reach_closed {g : Graph} {start : String} {E : List String} (N : Nat)
    (hE : ∀ u ∈ E, ∀ v ∈ neighbors g u, v ∈ E)
    (hbase : ∀ v n, n ≤ N → walkB g n start v = true → v ∈ E) :
    ∀ n v, walkB g n start v = true → v ∈ E := by
  intro n
  induction n with
  | zero => exact fun v h => hbase v 0 (Nat.zero_le N) h
  | succ n ih =>
    intro v hv
    by_cases hn : n + 1 ≤ N
    · exact hbase v (n + 1) hn hv
    · obtain ⟨w, hw, hvw⟩ := walkB_snoc.mp hv
      exact hE w (ih w hw) v hvw

/-- Helper: the head of a nonempty list. -/
lemma head?_eq_headD {p : List String} (h : p ≠ []) : p.head? = some (p.headD "") := by
  cases p with
  | nil => exact absurd rfl h
  | cons a t => rfl

/-- Helper: `getLast?` ignores a freshly consed head when the tail is nonempty. -/
lemma getLast?_cons_of_ne {a : String} {l : List String} (h : l ≠ []) :
    (a :: l).getLast? = l.getLast? := by
  cases l with
  | nil => exact absurd rfl h
  | cons b t => exact List.getLast?_cons_cons

/-- Helper: a constant-valued list is sorted. -/
lemma sorted_of_const {l : List Nat} (c : Nat) (h : ∀ x ∈ l, x = c) :
    List.Sorted (· ≤ ·) l := by
  induction l with
  | nil => simp
  | cons x t ih =>
    rw [List.sorted_cons]
    refine ⟨fun b hb => ?_, ih fun x hx => h x (List.mem_cons_of_mem _ hx)⟩
    rw [h x (List.mem_cons_self x t), h b (List.mem_cons_of_mem _ hb)]

/-- The loop invariant of `breadth_first_pathfind`.  `E` is the explored
list, `Q` the queue of reversed partial paths.  Writing `L` for the hop
length of the front path, the clauses say: every queued path is a valid
walk from `start`; path lengths are nondecreasing and span at most the
two levels `L, L+1`; every station closer than `L` hops is explored;
each neighbour of an explored station is explored or queued; every
unexplored station exactly `L` hops away heads some level-`L` queued
path; no explored station has `goal` as neighbour (the search would have
returned); when `start ≠ goal` the goal never appears as a path head nor
in `E`; and an empty queue means everything reachable was explored. -/
structure BfsInv (g : Graph) (start goal : String) (E : List String)
    (Q : List (List String)) : Prop where
  valid : ∀ p ∈ Q, ValidPath g start p
  sorted : List.Sorted (· ≤ ·) (Q.map List.length)
  window : ∀ p ∈ Q, ∀ h ∈ Q.head?, p.length ≤ h.length + 1
  explored_low : ∀ h ∈ Q.head?, ∀ v n, walkB g n start v = true → n + 1 < h.length → v ∈ E
  edge_comp : ∀ u ∈ E, ∀ v ∈ neighbors g u, v ∈ E ∨ ∃ p ∈ Q, p.head? = some v
  frontier : ∀ h ∈ Q.head?, ∀ v, v ∉ E → walkB g (h.length - 1) start v = true →
      ∃ p ∈ Q, p.head? = some v ∧ p.length = h.length
  no_goal_edge : ∀ u ∈ E, goal ∉ neighbors g u
  goal_free : start ≠ goal → goal ∉ E ∧ ∀ p ∈ Q, p.head? ≠ some goal
  drained : Q = [] → ∀ v n, walkB g n start v = true → v ∈ E

/-- The invariant holds at the initial search state `E = []`,
`Q = [[start]]`. -/
lemma bfsInv_init (g : Graph) (start goal : String) :
    BfsInv g start goal [] [[start]] := by
  refine ⟨?_, ?_, ?_, ?_, ?_, ?_, ?_, ?_, ?_⟩
  · intro p hp
    simp only [List.mem_singleton] at hp
    subst hp
    exact ⟨by simp, by simp, by simp⟩
  · simp
  · intro p hp h hh
    simp only [List.mem_singleton] at hp
    simp only [List.head?_cons, Option.mem_def, Option.some.injEq] at hh
    subst hp; subst hh
    simp
  · intro h hh v n _ hlt
    simp only [List.head?_cons, Option.mem_def, Option.some.injEq] at hh
    subst hh
    simp at hlt
  · simp
  · intro h hh v hv hw
    simp only [List.head?_cons, Option.mem_def, Option.some.injEq] at hh
    subst hh
    simp only [List.length_singleton, Nat.sub_self] at hw
    rw [walkB_zero] at hw
    exact ⟨[start], List.mem_singleton.mpr rfl, by simp [hw], rfl⟩
  · simp
  · intro hne
    refine ⟨by simp, fun p hp => ?_⟩
    simp only [List.mem_singleton] at hp
    subst hp
    simp only [List.head?_cons, ne_eq, Option.some.injEq]
    exact fun h => hne h
  · intro h
    simp at h

/-- Invariant preservation when the popped path's head is already
explored: the path is simply dropped. -/
lemma bfsInv_drop {g : Graph} {start goal : String} {E : List String}
    {p : List String} {rest : List (List String)}
    (inv : BfsInv g start goal E (p :: rest)) (hst : p.headD "" ∈ E) :
    BfsInv g start goal E rest := by
  have hpval := inv.valid p (List.mem_cons_self p rest)
  have hpne : p ≠ [] := hpval.1
  have hph : p.head? = some (p.headD "") := head?_eq_headD hpne
  have hplen : 1 ≤ p.length := List.length_pos.mpr hpne
  have hheadmem : p ∈ (p :: rest).head? := rfl
  have hwin : ∀ q ∈ rest, q.length ≤ p.length + 1 := fun q hq =>
    inv.window q (List.mem_cons_of_mem p hq) p hheadmem
  have hsorted := inv.sorted
  simp only [List.map_cons] at hsorted
  rw [List.sorted_cons] at hsorted
  have hmono : ∀ q ∈ rest, p.length ≤ q.length := fun q hq =>
    hsorted.1 q.length (List.mem_map_of_mem List.length hq)
  have hrest_head : ∀ h ∈ rest.head?, ∀ q ∈ rest, h.length ≤ q.length := by
    intro h hh q hq
    have hcons := List.eq_cons_of_mem_head? hh
    rw [hcons] at hq
    rcases List.mem_cons.mp hq with hq | hq
    · rw [hq]
    · have hs2 := hsorted.2
      rw [hcons, List.map_cons, List.sorted_cons] at hs2
      exact hs2.1 q.length (List.mem_map_of_mem List.length hq)
  have hhead_len : ∀ h ∈ rest.head?, p.length ≤ h.length ∧ h.length ≤ p.length + 1 := by
    intro h hh
    have hmem := List.mem_of_mem_head? hh
    exact ⟨hmono h hmem, hwin h hmem⟩
  refine ⟨?_, ?_, ?_, ?_, ?_, ?_, ?_, ?_, ?_⟩
  · exact fun q hq => inv.valid q (List.mem_cons_of_mem p hq)
  · exact hsorted.2
  · intro q hq h hh
    calc q.length ≤ p.length + 1 := hwin q hq
    _ ≤ h.length + 1 := by have := (hhead_len h hh).1; omega
  · intro h hh v n hw hlt
    have hl := hhead_len h hh
    by_cases hcase : n + 1 < p.length
    · exact inv.explored_low p hheadmem v n hw hcase
    · -- n + 1 = p.length and h.length = p.length + 1
      have hn : n + 1 = p.length := by omega
      have hn' : n = p.length - 1 := by omega
      by_cases hvE : v ∈ E
      · exact hvE
      · obtain ⟨q, hq, hqh, hqlen⟩ := inv.frontier p hheadmem v hvE (by rw [← hn']; exact hw)
        rcases List.mem_cons.mp hq with hq | hq
        · rw [hq, hph] at hqh
          have hv : p.headD "" = v := by simpa using hqh
          exact hv ▸ hst
        · exfalso
          have := hrest_head h hh q hq
          omega
  · intro u hu v hv
    rcases inv.edge_comp u hu v hv with hvE | ⟨q, hq, hqh⟩
    · exact Or.inl hvE
    · rcases List.mem_cons.mp hq with hq | hq
      · rw [hq, hph] at hqh
        have hv : p.headD "" = v := by simpa using hqh
        exact Or.inl (hv ▸ hst)
      · exact Or.inr ⟨q, hq, hqh⟩
  · intro h hh v hvE hw
    have hl := hhead_len h hh
    by_cases hcase : h.length = p.length
    · obtain ⟨q, hq, hqh, hqlen⟩ := inv.frontier p hheadmem v hvE (by rw [← hcase]; exact hw)
      rcases List.mem_cons.mp hq with hq | hq
      · rw [hq, hph] at hqh
        have hv : p.headD "" = v := by simpa using hqh
        exact absurd (hv ▸ hst) hvE
      · exact ⟨q, hq, hqh, by omega⟩
    · -- transition: h.length = p.length + 1
      have hlen1 : h.length = p.length + 1 := by omega
      have hw' : walkB g ((p.length - 1) + 1) start v = true := by
        have : h.length - 1 = (p.length - 1) + 1 := by omega
        rw [← this]; exact hw
      obtain ⟨w, hww, hvw⟩ := walkB_snoc.mp hw'
      have hwE : w ∈ E := by
        by_cases hwE' : w ∈ E
        · exact hwE'
        · obtain ⟨q, hq, hqh, hqlen⟩ := inv.frontier p hheadmem w hwE' hww
          rcases List.mem_cons.mp hq with hq | hq
          · rw [hq, hph] at hqh
            have hv : p.headD "" = w := by simpa using hqh
            exact hv ▸ hst
          · exfalso
            have := hrest_head h hh q hq
            omega
      rcases inv.edge_comp w hwE v hvw with hvE' | ⟨q, hq, hqh⟩
      · exact absurd hvE' hvE
      · rcases List.mem_cons.mp hq with hq | hq
        · rw [hq, hph] at hqh
          have hv : p.headD "" = v := by simpa using hqh
          exact absurd (hv ▸ hst) hvE
        · refine ⟨q, hq, hqh, ?_⟩
          have h1 := hrest_head h hh q hq
          have h2 := hwin q hq
          omega
  · exact inv.no_goal_edge
  · intro hne
    exact ⟨(inv.goal_free hne).1,
      fun q hq => (inv.goal_free hne).2 q (List.mem_cons_of_mem p hq)⟩
  · intro hrest
    subst hrest
    intro v n hw
    refine reach_closed (p.length - 1) ?_ ?_ n v hw
    · intro u hu x hx
      rcases inv.edge_comp u hu x hx with hxE | ⟨q, hq, hqh⟩
      · exact hxE
      · rw [List.mem_singleton] at hq
        rw [hq, hph] at hqh
        have hv : p.headD "" = x := by simpa using hqh
        exact hv ▸ hst
    · intro x n hn hw'
      by_cases hcase : n + 1 < p.length
      · exact inv.explored_low p hheadmem x n hw' hcase
      · have hn' : n = p.length - 1 := by omega
        by_cases hxE : x ∈ E
        · exact hxE
        · obtain ⟨q, hq, hqh, _⟩ := inv.frontier p hheadmem x hxE (by rw [← hn']; exact hw')
          rw [List.mem_singleton] at hq
          rw [hq, hph] at hqh
          have hv : p.headD "" = x := by simpa using hqh
          exact hv ▸ hst

/-- Invariant preservation when the popped path's head `st` is expanded:
`st` joins the explored list and every one-station extension of the path
is appended to the queue (the search did not return, so `goal` is not a
neighbour of `st`). -/
lemma bfsInv_expand {g : Graph} {start goal : String} {E : List String}
    {p : List String} {rest : List (List String)}
    (inv : BfsInv g start goal E (p :: rest)) (hst : p.headD "" ∉ E)
    (hgoal : goal ∉ neighbors g (p.headD "")) :
    BfsInv g start goal (E ++ [p.headD ""])
      (rest ++ (neighbors g (p.headD "")).map (fun w => w :: p)) := by
  have hpval := inv.valid p (List.mem_cons_self p rest)
  have hpne : p ≠ [] := hpval.1
  have hph : p.head? = some (p.headD "") := head?_eq_headD hpne
  have hplen : 1 ≤ p.length := List.length_pos.mpr hpne
  have hheadmem : p ∈ (p :: rest).head? := rfl
  have hwin : ∀ q ∈ rest, q.length ≤ p.length + 1 := fun q hq =>
    inv.window q (List.mem_cons_of_mem p hq) p hheadmem
  have hsorted := inv.sorted
  simp only [List.map_cons] at hsorted
  rw [List.sorted_cons] at hsorted
  have hmono : ∀ q ∈ rest, p.length ≤ q.length := fun q hq =>
    hsorted.1 q.length (List.mem_map_of_mem List.length hq)
  have hrest_head : ∀ h ∈ rest.head?, ∀ q ∈ rest, h.length ≤ q.length := by
    intro h hh q hq
    have hcons := List.eq_cons_of_mem_head? hh
    rw [hcons] at hq
    rcases List.mem_cons.mp hq with hq | hq
    · rw [hq]
    · have hs2 := hsorted.2
      rw [hcons, List.map_cons, List.sorted_cons] at hs2
      exact hs2.1 q.length (List.mem_map_of_mem List.length hq)
  have hext_mem : ∀ q ∈ (neighbors g (p.headD "")).map (fun w => w :: p),
      ∃ w ∈ neighbors g (p.headD ""), q = w :: p := by
    intro q hq
    obtain ⟨w, hw, rfl⟩ := List.mem_map.mp hq
    exact ⟨w, hw, rfl⟩
  have hext_len : ∀ q ∈ (neighbors g (p.headD "")).map (fun w => w :: p),
      q.length = p.length + 1 := by
    intro q hq
    obtain ⟨w, _, rfl⟩ := hext_mem q hq
    simp
  have hmemE' : ∀ x, x ∈ E ++ [p.headD ""] ↔ x ∈ E ∨ x = p.headD "" := by
    intro x
    simp [List.mem_append]
  have hhb : ∀ h ∈ (rest ++ (neighbors g (p.headD "")).map (fun w => w :: p)).head?,
      p.length ≤ h.length ∧ h.length ≤ p.length + 1 := by
    intro h hh
    cases rest with
    | nil =>
      simp only [List.nil_append] at hh
      have hm := List.mem_of_mem_head? hh
      have := hext_len h hm
      omega
    | cons r rtail =>
      simp only [List.cons_append, List.head?_cons, Option.mem_def, Option.some.injEq] at hh
      subst hh
      exact ⟨hmono r (List.mem_cons_self _ _), hwin r (List.mem_cons_self _ _)⟩
  have hh_rest : ∀ h ∈ (rest ++ (neighbors g (p.headD "")).map (fun w => w :: p)).head?,
      rest ≠ [] → h ∈ rest ∧ ∀ q ∈ rest, h.length ≤ q.length := by
    intro h hh hne
    cases rest with
    | nil => exact absurd rfl hne
    | cons r rtail =>
      simp only [List.cons_append, List.head?_cons, Option.mem_def, Option.some.injEq] at hh
      subst hh
      refine ⟨List.mem_cons_self _ _, ?_⟩
      exact hrest_head r rfl
  refine ⟨?_, ?_, ?_, ?_, ?_, ?_, ?_, ?_, ?_⟩
  · -- valid
    intro q hq
    rcases List.mem_append.mp hq with hq | hq
    · exact inv.valid q (List.mem_cons_of_mem p hq)
    · obtain ⟨w, hw, rfl⟩ := hext_mem q hq
      refine ⟨by simp, ?_, ?_⟩
      · rw [getLast?_cons_of_ne hpne]
        exact hpval.2.1
      · rw [List.chain'_cons']
        refine ⟨?_, hpval.2.2⟩
        intro y hy
        rw [hph] at hy
        have : y = p.headD "" := by simpa using hy.symm
        rw [this]
        exact hw
  · -- sorted
    rw [List.map_append]
    unfold List.Sorted
    rw [List.pairwise_append]
    refine ⟨hsorted.2, ?_, ?_⟩
    · apply sorted_of_const (p.length + 1)
      intro x hx
      obtain ⟨q, hq, rfl⟩ := List.mem_map.mp hx
      exact hext_len q hq
    · intro a ha b hb
      obtain ⟨qa, hqa, rfl⟩ := List.mem_map.mp ha
      obtain ⟨qb, hqb, rfl⟩ := List.mem_map.mp hb
      have h1 := hwin qa hqa
      have h2 := hext_len qb hqb
      omega
  · -- window
    intro q hq h hh
    have hb := hhb h hh
    have : q.length ≤ p.length + 1 := by
      rcases List.mem_append.mp hq with hq | hq
      · exact hwin q hq
      · exact (hext_len q hq).le
    omega
  · -- explored_low
    intro h hh v n hw hlt
    have hb := hhb h hh
    by_cases hcase : n + 1 < p.length
    · exact (hmemE' v).mpr (Or.inl (inv.explored_low p hheadmem v n hw hcase))
    · have hn : n + 1 = p.length := by omega
      have hlen1 : h.length = p.length + 1 := by omega
      have hn' : n = p.length - 1 := by omega
      by_cases hvE : v ∈ E
      · exact (hmemE' v).mpr (Or.inl hvE)
      · obtain ⟨q, hq, hqh, hqlen⟩ := inv.frontier p hheadmem v hvE (by rw [← hn']; exact hw)
        rcases List.mem_cons.mp hq with hq | hq
        · rw [hq, hph] at hqh
          have hv : p.headD "" = v := by simpa using hqh
          exact (hmemE' v).mpr (Or.inr hv.symm)
        · exfalso
          have hne : rest ≠ [] := List.ne_nil_of_mem hq
          have := (hh_rest h hh hne).2 q hq
          omega
  · -- edge_comp
    intro u hu v hv
    rcases (hmemE' u).mp hu with hu | hu
    · rcases inv.edge_comp u hu v hv with hvE | ⟨q, hq, hqh⟩
      · exact Or.inl ((hmemE' v).mpr (Or.inl hvE))
      · rcases List.mem_cons.mp hq with hq | hq
        · rw [hq, hph] at hqh
          have hveq : p.headD "" = v := by simpa using hqh
          exact Or.inl ((hmemE' v).mpr (Or.inr hveq.symm))
        · exact Or.inr ⟨q, List.mem_append_left _ hq, hqh⟩
    · subst hu
      refine Or.inr ⟨v :: p, ?_, rfl⟩
      exact List.mem_append_right _ (List.mem_map_of_mem _ hv)
  · -- frontier
    intro h hh v hvE' hw
    have hvE : v ∉ E := fun hx => hvE' ((hmemE' v).mpr (Or.inl hx))
    have hvst : v ≠ p.headD "" := fun hx => hvE' ((hmemE' v).mpr (Or.inr hx))
    have hb := hhb h hh
    by_cases hcase : h.length = p.length
    · obtain ⟨q, hq, hqh, hqlen⟩ := inv.frontier p hheadmem v hvE (by rw [← hcase]; exact hw)
      rcases List.mem_cons.mp hq with hq | hq
      · rw [hq, hph] at hqh
        have hveq : p.headD "" = v := by simpa using hqh
        exact absurd hveq.symm hvst
      · exact ⟨q, List.mem_append_left _ hq, hqh, by omega⟩
    · have hlen1 : h.length = p.length + 1 := by omega
      have hw' : walkB g ((p.length - 1) + 1) start v = true := by
        have heq : h.length - 1 = (p.length - 1) + 1 := by omega
        rw [← heq]; exact hw
      obtain ⟨w, hww, hvw⟩ := walkB_snoc.mp hw'
      have hwE' : w ∈ E ∨ w = p.headD "" := by
        by_cases hwE : w ∈ E
        · exact Or.inl hwE
        · by_cases hwst : w = p.headD ""
          · exact Or.inr hwst
          · exfalso
            obtain ⟨q, hq, hqh, hqlen⟩ := inv.frontier p hheadmem w hwE hww
            rcases List.mem_cons.mp hq with hq | hq
            · rw [hq, hph] at hqh
              exact hwst (by simpa using hqh.symm)
            · have hne : rest ≠ [] := List.ne_nil_of_mem hq
              have := (hh_rest h hh hne).2 q hq
              omega
      rcases hwE' with hwE | hwst
      · rcases inv.edge_comp w hwE v hvw with hvE2 | ⟨q, hq, hqh⟩
        · exact absurd hvE2 hvE
        · rcases List.mem_cons.mp hq with hq | hq
          · rw [hq, hph] at hqh
            have hveq : p.headD "" = v := by simpa using hqh
            exact absurd hveq.symm hvst
          · have hne : rest ≠ [] := List.ne_nil_of_mem hq
            refine ⟨q, List.mem_append_left _ hq, hqh, ?_⟩
            have h1 := (hh_rest h hh hne).2 q hq
            have h2 := hwin q hq
            omega
      · subst hwst
        refine ⟨v :: p, ?_, rfl, by simp [hlen1]⟩
        exact List.mem_append_right _ (List.mem_map_of_mem _ hvw)
  · -- no_goal_edge
    intro u hu
    rcases (hmemE' u).mp hu with hu | hu
    · exact inv.no_goal_edge u hu
    · subst hu
      exact hgoal
  · -- goal_free
    intro hne
    obtain ⟨hgE, hgQ⟩ := inv.goal_free hne
    constructor
    · intro hx
      rcases (hmemE' goal).mp hx with hx | hx
      · exact hgE hx
      · have := hgQ p (List.mem_cons_self p rest)
        rw [hph] at this
        exact this (by rw [hx])
    · intro q hq
      rcases List.mem_append.mp hq with hq | hq
      · exact hgQ q (List.mem_cons_of_mem p hq)
      · obtain ⟨w, hw, rfl⟩ := hext_mem q hq
        simp only [List.head?_cons, ne_eq, Option.some.injEq]
        intro hwg
        exact hgoal (hwg ▸ hw)
  · -- drained
    intro hQ'
    obtain ⟨hrest, hext⟩ := List.append_eq_nil.mp hQ'
    have hns : neighbors g (p.headD "") = [] := List.map_eq_nil_iff.mp hext
    subst hrest
    intro v n hw
    refine reach_closed (p.length - 1) ?_ ?_ n v hw
    · intro u hu x hx
      rcases (hmemE' u).mp hu with hu | hu
      · rcases inv.edge_comp u hu x hx with hxE | ⟨q, hq, hqh⟩
        · exact (hmemE' x).mpr (Or.inl hxE)
        · rw [List.mem_singleton] at hq
          rw [hq, hph] at hqh
          have hveq : p.headD "" = x := by simpa using hqh
          exact (hmemE' x).mpr (Or.inr hveq.symm)
      · subst hu
        rw [hns] at hx
        simp at hx
    · intro x m hm hw'
      by_cases hcase : m + 1 < p.length
      · exact (hmemE' x).mpr (Or.inl (inv.explored_low p hheadmem x m hw' hcase))
      · have hm' : m = p.length - 1 := by omega
        by_cases hxE : x ∈ E
        · exact (hmemE' x).mpr (Or.inl hxE)
        · obtain ⟨q, hq, hqh, _⟩ := inv.frontier p hheadmem x hxE (by rw [← hm']; exact hw')
          rw [List.mem_singleton] at hq
          rw [hq, hph] at hqh
          have hveq : p.headD "" = x := by simpa using hqh
          exact (hmemE' x).mpr (Or.inr hveq.symm)

/-- Master specification of the search loop.  Under the invariant:
an empty result means no walk of ≥ 1 hops reaches `goal`; a non-empty
result is a (reversed) valid walk of ≥ 1 hops from `start` to `goal`;
and when `start ≠ goal` its hop count is minimal. -/
theorem bfsAux_spec (g : Graph) (start goal : String) (E : List String)
    (Q : List (List String)) (inv : BfsInv g start goal E Q) :
    (bfsAux g goal E Q = [] → ∀ n, walkB g (n + 1) start goal = false) ∧
    (bfsAux g goal E Q ≠ [] →
      (2 ≤ (bfsAux g goal E Q).length ∧
       (bfsAux g goal E Q).head? = some goal ∧
       (bfsAux g goal E Q).getLast? = some start ∧
       List.Chain' (fun x y => x ∈ neighbors g y) (bfsAux g goal E Q) ∧
       walkB g ((bfsAux g goal E Q).length - 1) start goal = true) ∧
      (start ≠ goal →
        ∀ m, m < (bfsAux g goal E Q).length - 1 → walkB g m start goal = false)) := by
  match Q with
  | [] =>
    rw [bfsAux]
    refine ⟨fun _ n => ?_, fun h => absurd rfl h⟩
    by_contra hcon
    rw [Bool.not_eq_false] at hcon
    obtain ⟨w, hw, hedge⟩ := walkB_snoc.mp hcon
    exact inv.no_goal_edge w (inv.drained rfl w n hw) hedge
  | p :: rest =>
    by_cases hst : p.headD "" ∈ E
    · rw [bfsAux, if_pos hst]
      exact bfsAux_spec g start goal E rest (bfsInv_drop inv hst)
    · by_cases hg : goal ∈ neighbors g (p.headD "")
      · rw [bfsAux, if_neg hst, if_pos hg]
        have hpval := inv.valid p (List.mem_cons_self p rest)
        have hpne : p ≠ [] := hpval.1
        have hph : p.head? = some (p.headD "") := head?_eq_headD hpne
        have hplen : 1 ≤ p.length := List.length_pos.mpr hpne
        have hheadmem : p ∈ (p :: rest).head? := rfl
        have hvalid : ValidPath g start (goal :: p) := by
          refine ⟨by simp, ?_, ?_⟩
          · rw [getLast?_cons_of_ne hpne]
            exact hpval.2.1
          · rw [List.chain'_cons']
            refine ⟨?_, hpval.2.2⟩
            intro y hy
            rw [hph] at hy
            have : y = p.headD "" := by simpa using hy.symm
            rw [this]
            exact hg
        refine ⟨fun h => absurd h (by simp), fun _ => ⟨⟨?_, rfl, hvalid.2.1, hvalid.2.2, ?_⟩, ?_⟩⟩
        · simp only [List.length_cons]
          omega
        · have := validPath_walk hvalid
          simpa using this
        · intro hne m hm
          simp only [List.length_cons, Nat.add_sub_cancel] at hm
          by_contra hcon
          rw [Bool.not_eq_false] at hcon
          obtain ⟨hgE, hgQ⟩ := inv.goal_free hne
          by_cases hcase : m + 1 < p.length
          · exact hgE (inv.explored_low p hheadmem goal m hcon hcase)
          · have hm' : m = p.length - 1 := by omega
            obtain ⟨q, hq, hqh, _⟩ :=
              inv.frontier p hheadmem goal hgE (by rw [← hm']; exact hcon)
            exact hgQ q hq hqh
      · rw [bfsAux, if_neg hst, if_neg hg]
        exact bfsAux_spec g start goal (E ++ [p.headD ""])
          (rest ++ (neighbors g (p.headD "")).map (fun w => w :: p))
          (bfsInv_expand inv hst hg)
termination_by (((keys g).filter (fun k => ¬ k ∈ E)).length, Q.length)
decreasing_by
  · apply Prod.Lex.right
    simp
  · by_cases hk : p.headD "" ∈ keys g
    · apply Prod.Lex.left
      have h1 : ((keys g).filter (fun k => ¬ k ∈ E ++ [p.headD ""])) =
          (((keys g).filter (fun k => ¬ k ∈ E)).filter (fun k => ¬ k = p.headD "")) := by
        rw [List.filter_filter]
        apply List.filter_congr
        intro a _
        simp [List.mem_append, Bool.and_comm]
      rw [h1]
      have h2 : p.headD "" ∈ (keys g).filter (fun k => ¬ k ∈ E) := by
        simp only [List.mem_filter]
        exact ⟨hk, by simpa using hst⟩
      apply List.length_filter_lt_length_iff_exists.mpr
      exact ⟨p.headD "", h2, by simp⟩
    · have hns : neighbors g (p.headD "") = [] := by
        unfold neighbors
        cases hfind : g.find? (fun q => q.1 == p.headD "") with
        | none => rfl
        | some q =>
          exfalso
          have := List.find?_some hfind
          have hmemq := List.mem_of_find?_eq_some hfind
          apply hk
          simp only [beq_iff_eq] at this
          rw [← this]
          exact List.mem_map_of_mem Prod.fst hmemq
      have hfilter : ((keys g).filter (fun k => ¬ k ∈ E ++ [p.headD ""])) =
          ((keys g).filter (fun k => ¬ k ∈ E)) := by
        apply List.filter_congr
        intro a ha
        have : a ≠ p.headD "" := fun h => hk (h ▸ ha)
        simp only [List.mem_append, List.mem_singleton]
        simp only [List.headD_eq_head?_getD] at this
        simp [this]
      rw [hfilter, hns]
      apply Prod.Lex.right
      simp

lemma bfp_ne_nil_iff {g : Graph} {start goal : String} :
    Station.breadth_first_pathfind g start goal ≠ [] ↔ bfsAux g goal [] [[start]] ≠ [] := by
  unfold Station.breadth_first_pathfind
  simp

/-- C1 (counterexample): with the one-station graph `{A: []}` and
`start = goal = A`, the goal is reachable from the start in a minimum of
0 hops, yet the search returns the empty list, whose length is not
`0 + 1`: the claimed equality `len(path) - 1 = min hop count` fails for
the trivially reachable pair `(A, A)`. -/
theorem breadth_first_pathfind_minimality_cex :
    walkB [("A", [])] 0 "A" "A" = true ∧
    (Station.breadth_first_pathfind [("A", [])] "A" "A").length ≠ 0 + 1 := by
  constructor
  · decide
  · simp [Station.breadth_first_pathfind, bfsAux, neighbors]

/-- C1 (amended): for every closed connection graph and every pair
`start ≠ goal` with `goal` reachable from `start`,
`breadth_first_pathfind` returns a path whose length minus one is the
true minimum hop count: a walk of that many hops exists and no strictly
shorter walk does. -/
theorem breadth_first_pathfind_minimality (g : Graph) (start goal : String)
    (hclosed : Closed g) (hstart : start ∈ keys g) (hne : start ≠ goal)
    (hreach : ∃ n, walkB g n start goal = true) :
    walkB g ((Station.breadth_first_pathfind g start goal).length - 1) start goal = true ∧
    ∀ m, m < (Station.breadth_first_pathfind g start goal).length - 1 →
      walkB g m start goal = false := by
  have spec := bfsAux_spec g start goal [] [[start]] (bfsInv_init g start goal)
  have hne' : bfsAux g goal [] [[start]] ≠ [] := by
    intro hnil
    obtain ⟨n, hn⟩ := hreach
    match n with
    | 0 => exact hne (walkB_zero.mp hn)
    | m + 1 =>
      rw [spec.1 hnil m] at hn
      exact Bool.false_ne_true hn
  have hsound := spec.2 hne'
  have hlen : (Station.breadth_first_pathfind g start goal).length =
      (bfsAux g goal [] [[start]]).length := by
    unfold Station.breadth_first_pathfind
    exact List.length_reverse _
  rw [hlen]
  exact ⟨hsound.1.2.2.2.2, hsound.2 hne⟩

/-- C1 (witness): on the two-station graph `A → B` the theorem applies
and certifies the minimum hop count. -/
theorem breadth_first_pathfind_minimality_witness :
    walkB [("A", ["B"]), ("B", [])]
        ((Station.breadth_first_pathfind [("A", ["B"]), ("B", [])] "A" "B").length - 1)
        "A" "B" = true ∧
    ∀ m, m < (Station.breadth_first_pathfind [("A", ["B"]), ("B", [])] "A" "B").length - 1 →
      walkB [("A", ["B"]), ("B", [])] m "A" "B" = false :=
  breadth_first_pathfind_minimality [("A", ["B"]), ("B", [])] "A" "B"
    (by decide) (by decide) (by decide) ⟨1, by decide⟩

/-- C8: for every closed connection graph, if `goal` is unreachable from
`start` (no walk of one or more hops reaches it), the search returns the
empty list; and in particular a `start` with zero outgoing connections
always yields the empty list. -/
theorem breadth_first_pathfind_emptiness (g : Graph) (start goal : String)
    (hclosed : Closed g) (hstart : start ∈ keys g) :
    ((∀ n, walkB g (n + 1) start goal = false) →
      Station.breadth_first_pathfind g start goal = []) ∧
    (neighbors g start = [] → Station.breadth_first_pathfind g start goal = []) := by
  have spec := bfsAux_spec g start goal [] [[start]] (bfsInv_init g start goal)
  have main : (∀ n, walkB g (n + 1) start goal = false) →
      Station.breadth_first_pathfind g start goal = [] := by
    intro hunreach
    by_contra hne'
    have hsound := spec.2 (bfp_ne_nil_iff.mp hne')
    have hlen2 := hsound.1.1
    have hwalk := hsound.1.2.2.2.2
    have : ∃ k, (bfsAux g goal [] [[start]]).length - 1 = k + 1 :=
      ⟨(bfsAux g goal [] [[start]]).length - 2, by omega⟩
    obtain ⟨k, hk⟩ := this
    rw [hk, hunreach k] at hwalk
    exact Bool.false_ne_true hwalk
  refine ⟨main, fun hns => main fun n => ?_⟩
  rw [Bool.eq_false_iff]
  intro hcon
  obtain ⟨w, hw, _⟩ := walkB_succ.mp hcon
  rw [hns] at hw
  exact List.not_mem_nil w hw

/-- C8 (witness): a start station with no outgoing connections yields
the empty path. -/
theorem breadth_first_pathfind_emptiness_witness :
    Station.breadth_first_pathfind [("A", [])] "A" "B" = [] :=
  (breadth_first_pathfind_emptiness [("A", [])] "A" "B" (by decide) (by decide)).2 (by decide)

/-- C10: searching from a station to itself never returns the
single-element path `[s]`: every non-empty result has at least two
stations, begins and ends at `s`, and follows graph edges (a cycle of at
least one hop); and the result is empty exactly when no walk of one or
more hops leads from `s` back to itself. -/
theorem breadth_first_pathfind_start_eq_goal (g : Graph) (s : String)
    (hclosed : Closed g) (hs : s ∈ keys g) :
    Station.breadth_first_pathfind g s s ≠ [s] ∧
    (Station.breadth_first_pathfind g s s ≠ [] →
      2 ≤ (Station.breadth_first_pathfind g s s).length ∧
      (Station.breadth_first_pathfind g s s).head? = some s ∧
      (Station.breadth_first_pathfind g s s).getLast? = some s ∧
      List.Chain' (fun x y => y ∈ neighbors g x) (Station.breadth_first_pathfind g s s)) ∧
    (Station.breadth_first_pathfind g s s = [] ↔ ∀ n, walkB g (n + 1) s s = false) := by
  have spec := bfsAux_spec g s s [] [[s]] (bfsInv_init g s s)
  have hlen : (Station.breadth_first_pathfind g s s).length =
      (bfsAux g s [] [[s]]).length := by
    unfold Station.breadth_first_pathfind
    exact List.length_reverse _
  have hstruct : Station.breadth_first_pathfind g s s ≠ [] →
      2 ≤ (Station.breadth_first_pathfind g s s).length ∧
      (Station.breadth_first_pathfind g s s).head? = some s ∧
      (Station.breadth_first_pathfind g s s).getLast? = some s ∧
      List.Chain' (fun x y => y ∈ neighbors g x) (Station.breadth_first_pathfind g s s) := by
    intro hne'
    have hsound := (spec.2 (bfp_ne_nil_iff.mp hne')).1
    refine ⟨by rw [hlen]; exact hsound.1, ?_, ?_, ?_⟩
    · unfold Station.breadth_first_pathfind
      rw [List.head?_reverse]
      exact hsound.2.2.1
    · unfold Station.breadth_first_pathfind
      rw [List.getLast?_reverse]
      exact hsound.2.1
    · unfold Station.breadth_first_pathfind
      rw [List.chain'_reverse]
      exact hsound.2.2.2.1
  refine ⟨?_, hstruct, ?_, ?_⟩
  · intro hbad
    have h2 := (hstruct (by rw [hbad]; simp)).1
    rw [hbad] at h2
    simp at h2
  · intro hnil n
    have : bfsAux g s [] [[s]] = [] := by
      unfold Station.breadth_first_pathfind at hnil
      exact List.reverse_eq_nil_iff.mp hnil
    exact spec.1 this n
  · intro hunreach
    by_contra hne'
    have hsound := (spec.2 (bfp_ne_nil_iff.mp hne')).1
    have hwalk := hsound.2.2.2.2
    have hlen2 := hsound.1
    have : ∃ k, (bfsAux g s [] [[s]]).length - 1 = k + 1 :=
      ⟨(bfsAux g s [] [[s]]).length - 2, by omega⟩
    obtain ⟨k, hk⟩ := this
    rw [hk, hunreach k] at hwalk
    exact Bool.false_ne_true hwalk

/-- C10 (witness): on the self-loop graph `{A: [A]}` the theorem applies. -/
theorem breadth_first_pathfind_start_eq_goal_witness :
    Station.breadth_first_pathfind [("A", ["A"])] "A" "A" ≠ ["A"] :=
  (breadth_first_pathfind_start_eq_goal [("A", ["A"])] "A" (by decide) (by decide)).1

/-! ### Loading the station catalog (`Station.build_catalog`,
`Station.map_connections`) -/

/-- A raw connection record `(from, to, line, direction)`. -/
abbrev ConnRec := String × String × String × String

/-- Model of `Station.build_catalog`: dict comprehension over the station list
(later duplicates overwrite, keeping the first insertion position, as in
a Python dict). -/
def Station.build_catalog (station_list : List (String × Rat)) : Catalog :=
  station_list.foldl
    (fun cat s => dictSet cat s.1 { name := s.1, delay_constant := s.2, connections := [] })
    []

/-- Append one connection tuple to the named station's connection list;
an unknown name is the Python `KeyError` (`.error`). -/
def appendConn (cat : Catalog) (k : String) (c : Conn) : Except String Catalog :=
  match dictGet? cat k with
  | none => .error k
  | some st => .ok (dictSet cat k { st with connections := st.connections ++ [c] })

/-- The direction of the inverse entry: `'N'` for `'S'`, else `'S'`
(exactly the `if element[-1] == 'S'` branch of the source). -/
def opposite (d : String) : String := if d == "S" then "N" else "S"

/-- Model of `Station.map_connections`: first pass appends the forward entry
`(to, line, dir)` to `from`'s list for every record, second pass appends
the inverse `(from, line, opposite dir)` to `to`'s list. -/
def Station.map_connections (stations_list : List (String × Rat))
    (connections_list : List ConnRec) : Except String Catalog := do
  let cat1 ← connections_list.foldlM
    (fun cat e => appendConn cat e.1 (e.2.1, e.2.2.1, e.2.2.2))
    (Station.build_catalog stations_list)
  connections_list.foldlM
    (fun cat e => appendConn cat e.2.1 (e.1, e.2.2.1, opposite e.2.2.2)) cat1

/-! ### Trains (`Train.reverse`, `Train.move`, `Train.simulate_turn`,
`Train.build_catalog`) -/

/-- The `Train` class. -/
structure Train where
  name : Nat
  station : String
  line : String
  course : String
deriving DecidableEq, Repr

/-- Python tuple membership `x in connection` over the 3-tuple
`(target, line, direction)` — the test actually used by `Train.move`. -/
def tupleMem (x : String) (c : Conn) : Bool :=
  x == c.1 || x == c.2.1 || x == c.2.2

/-- Model of `Train.reverse`: `'N'` becomes `'S'`, anything else becomes `'N'`. -/
def Train.reverse (t : Train) : Train :=
  if t.course == "N" then { t with course := "S" } else { t with course := "N" }

/-- Model of `Train.move`: check for an exact `(line, course)` match among the
`connection[1:]` slices; if none, reverse the course; then move to the
first connection containing the line and the (possibly reversed) course
as tuple members, returning the success flag. -/
def Train.move (t : Train) (station_catalog : Catalog) : Train × Bool :=
  let connections_data := (connsOf station_catalog t.station).map (fun c => (c.2.1, c.2.2))
  let t1 := if (t.line, t.course) ∈ connections_data then t else t.reverse
  match (connsOf station_catalog t.station).find?
      (fun c => tupleMem t1.line c && tupleMem t1.course c) with
  | some c => ({ t1 with station := c.1 }, true)
  | none => (t1, false)

/-- The delay constant of a station (theorems about `simulate_turn`
assume the station exists; Python raises `KeyError` otherwise). -/
def delayOf (cat : Catalog) (s : String) : Rat :=
  ((dictGet? cat s).map Station.delay_constant).getD 0

/-- The loop of `simulate_turn`: the `i`-th train draws the `i`-th
`random.random()` sample and is skipped exactly when
`delay_constant > sample`; otherwise `move` is invoked on it. -/
def simulateAux (station_catalog : Catalog) (oracle : Nat → Rat) :
    Nat → List Train → List Train
  | _, [] => []
  | i, t :: ts =>
    (if delayOf station_catalog t.station > oracle i then t
     else (t.move station_catalog).1) ::
      simulateAux station_catalog oracle (i + 1) ts

/-- Model of `Train.simulate_turn` over the trains in registry order, with the
random source made explicit as an oracle of uniform samples in `[0,1)`. -/
def Train.simulate_turn (station_catalog : Catalog) (train_catalog : List Train)
    (oracle : Nat → Rat) : List Train :=
  simulateAux station_catalog oracle 0 train_catalog

/-- Random choice: `random.choice`/`random.choices` modelled by an index oracle: any
oracle value selects `l[i % len l]`, so every element is selectable;
choosing from an empty sequence raises (`none`). -/
def pick {α : Type} (l : List α) (i : Nat) : Option α :=
  l.get? (i % l.length)

/-- The distinct line ids among a station's connections, in
first-appearance order (the `line_options` accumulation of the source). -/
def line_options (st : Station) : List String :=
  st.connections.foldl (fun acc c => if c.2.1 ∈ acc then acc else acc ++ [c.2.1]) []

/-- The key list of a catalog (`list(station_catalog.keys())`). -/
def dictKeys {α : Type} (d : List (String × α)) : List String := d.map Prod.fst

/-- Model of `Train.build_catalog`: every train gets a random station, a random
course from `['N','S']`, and a random line among the distinct lines at
its station.  `none` models the `IndexError` raised by `random.choice`
on an empty `line_options` list. -/
def Train.build_catalog (station_catalog : Catalog) (train_count : Nat)
    (stationPick coursePick linePick : Nat → Nat) : Option (List Train) :=
  (List.range train_count).mapM (fun n => do
    let station ← pick (dictKeys station_catalog) (stationPick n)
    let course ← pick ["N", "S"] (coursePick n)
    let st ← dictGet? station_catalog station
    let line ← pick (line_options st) (linePick n)
    pure { name := n + 1, station := station, line := line, course := course })

/-! ### Dictionary and load lemmas -/

lemma dictGet?_set {α : Type} (d : List (String × α)) (k k' : String) (v : α) :
    dictGet? (dictSet d k v) k' = if k' = k then some v else dictGet? d k' := by
  induction d with
  | nil =>
    simp only [dictSet, dictGet?, List.find?]
    by_cases h : k' = k
    · subst h
      simp
    · have hbeq : (k == k') = false := beq_eq_false_iff_ne.mpr (fun hx => h hx.symm)
      simp [hbeq, h]
  | cons p rest ih =>
    simp only [dictSet]
    by_cases h1 : p.1 == k
    · rw [if_pos h1]
      simp only [dictGet?, List.find?]
      by_cases h2 : k' = k
      · subst h2
        simp
      · have h3 : ¬ (k == k') := by simpa using fun hx => h2 (by simpa using hx.symm)
        have h4 : ¬ (p.1 == k') := by
          have : p.1 = k := by simpa using h1
          subst this
          exact h3
        simp only [h3, h4, cond_false, if_neg h2]
    · rw [if_neg h1]
      simp only [dictGet?, List.find?] at ih ⊢
      by_cases h2 : p.1 == k'
      · simp only [h2, cond_true]
        have h3 : ¬ (k' = k) := by
          intro hx
          subst hx
          exact h1 h2
        rw [if_neg h3]
      · simp only [h2, cond_false]
        exact ih

lemma appendConn_ok {cat cat' : Catalog} {k : String} {c : Conn}
    (h : appendConn cat k c = .ok cat') :
    (∀ s, s ≠ k → dictGet? cat' s = dictGet? cat s) ∧
    connsOf cat' k = connsOf cat k ++ [c] ∧
    (∀ s, (dictGet? cat' s).isSome = (dictGet? cat s).isSome) := by
  unfold appendConn at h
  cases hg : dictGet? cat k with
  | none =>
    rw [hg] at h
    exact absurd h (by simp)
  | some st =>
    rw [hg] at h
    have hcat' : cat' = dictSet cat k { st with connections := st.connections ++ [c] } := by
      simpa using h.symm
    subst hcat'
    refine ⟨?_, ?_, ?_⟩
    · intro s hs
      rw [dictGet?_set, if_neg hs]
    · unfold connsOf
      rw [dictGet?_set, if_pos rfl, hg]
      rfl
    · intro s
      rw [dictGet?_set]
      by_cases hs : s = k
      · subst hs
        rw [if_pos rfl, hg]
        rfl
      · rw [if_neg hs]

lemma appendConn_mono {cat cat' : Catalog} {k s : String} {c c' : Conn}
    (h : appendConn cat k c = .ok cat') (hm : c' ∈ connsOf cat s) : c' ∈ connsOf cat' s := by
  obtain ⟨hother, hk, _⟩ := appendConn_ok h
  by_cases hs : s = k
  · subst hs
    rw [hk]
    exact List.mem_append_left _ hm
  · unfold connsOf
    rw [hother s hs]
    exact hm

lemma appendConn_adds {cat cat' : Catalog} {k : String} {c : Conn}
    (h : appendConn cat k c = .ok cat') : c ∈ connsOf cat' k := by
  rw [(appendConn_ok h).2.1]
  exact List.mem_append_right _ (List.mem_singleton.mpr rfl)

lemma foldlM_conn_mono {f : Catalog → ConnRec → Except String Catalog}
    (hf : ∀ cat e cat', f cat e = .ok cat' → ∀ s c, c ∈ connsOf cat s → c ∈ connsOf cat' s) :
    ∀ (l : List ConnRec) (cat cat' : Catalog), l.foldlM f cat = .ok cat' →
      ∀ s c, c ∈ connsOf cat s → c ∈ connsOf cat' s := by
  intro l
  induction l with
  | nil =>
    intro cat cat' h
    simp only [List.foldlM_nil] at h
    cases h
    exact fun s c => id
  | cons e t ih =>
    intro cat cat' h s c hm
    rw [List.foldlM_cons] at h
    cases hstep : f cat e with
    | error err =>
      rw [hstep] at h
      exact absurd h (fun hcon => Except.noConfusion hcon)
    | ok cat1 =>
      rw [hstep] at h
      exact ih cat1 cat' h s c (hf cat e cat1 hstep s c hm)

lemma foldlM_conn_adds {f : Catalog → ConnRec → Except String Catalog}
    (key : ConnRec → String) (cn : ConnRec → Conn)
    (hmono : ∀ cat e cat', f cat e = .ok cat' → ∀ s c, c ∈ connsOf cat s → c ∈ connsOf cat' s)
    (hadds : ∀ cat e cat', f cat e = .ok cat' → cn e ∈ connsOf cat' (key e)) :
    ∀ (l : List ConnRec) (cat cat' : Catalog), l.foldlM f cat = .ok cat' →
      ∀ e ∈ l, cn e ∈ connsOf cat' (key e) := by
  intro l
  induction l with
  | nil =>
    intro cat cat' _ e he
    exact absurd he (List.not_mem_nil e)
  | cons e0 t ih =>
    intro cat cat' h e he
    rw [List.foldlM_cons] at h
    cases hstep : f cat e0 with
    | error err =>
      rw [hstep] at h
      exact absurd h (fun hcon => Except.noConfusion hcon)
    | ok cat1 =>
      rw [hstep] at h
      rcases List.mem_cons.mp he with he | he
      · subst he
        exact foldlM_conn_mono hmono t cat1 cat' h (key e) (cn e) (hadds cat e cat1 hstep)
      · exact ih cat1 cat' h e he

lemma foldlM_conn_domain {f : Catalog → ConnRec → Except String Catalog}
    (hf : ∀ cat e cat', f cat e = .ok cat' →
      ∀ s, (dictGet? cat' s).isSome = (dictGet? cat s).isSome) :
    ∀ (l : List ConnRec) (cat cat' : Catalog), l.foldlM f cat = .ok cat' →
      ∀ s, (dictGet? cat' s).isSome = (dictGet? cat s).isSome := by
  intro l
  induction l with
  | nil =>
    intro cat cat' h
    simp only [List.foldlM_nil] at h
    cases h
    exact fun s => rfl
  | cons e t ih =>
    intro cat cat' h s
    rw [List.foldlM_cons] at h
    cases hstep : f cat e with
    | error err =>
      rw [hstep] at h
      exact absurd h (fun hcon => Except.noConfusion hcon)
    | ok cat1 =>
      rw [hstep] at h
      rw [ih cat1 cat' h s, hf cat e cat1 hstep s]

/-- The domain of `Station.build_catalog` is exactly the loaded names. -/
lemma build_catalog_isSome (sl : List (String × Rat)) (s : String) :
    (dictGet? (Station.build_catalog sl) s).isSome = true ↔ s ∈ sl.map Prod.fst := by
  have haux : ∀ (l : List (String × Rat)) (cat : Catalog),
      (dictGet? (l.foldl (fun cat p =>
        dictSet cat p.1 { name := p.1, delay_constant := p.2, connections := [] }) cat) s).isSome
        = true ↔ s ∈ l.map Prod.fst ∨ (dictGet? cat s).isSome = true := by
    intro l
    induction l with
    | nil => simp
    | cons p t ih =>
      intro cat
      rw [List.foldl_cons, ih, List.map_cons]
      rw [List.mem_cons]
      constructor
      · rintro (ht | hcat)
        · exact Or.inl (Or.inr ht)
        · rw [dictGet?_set] at hcat
          by_cases hs : s = p.1
          · exact Or.inl (Or.inl hs)
          · rw [if_neg hs] at hcat
            exact Or.inr hcat
      · rintro ((hs | ht) | hcat)
        · refine Or.inr ?_
          rw [dictGet?_set, if_pos hs]
          rfl
        · exact Or.inl ht
        · refine Or.inr ?_
          rw [dictGet?_set]
          by_cases hs : s = p.1
          · rw [if_pos hs]; rfl
          · rw [if_neg hs]; exact hcat
  unfold Station.build_catalog
  rw [haux]
  simp [dictGet?]

/-- A fold of `appendConn` steps fails as soon as some record's key is
absent (and keys are never added by `appendConn`). -/
lemma foldlM_append_error (key : ConnRec → String) (cn : ConnRec → Conn) :
    ∀ (l : List ConnRec) (cat : Catalog),
      (∃ e ∈ l, dictGet? cat (key e) = none) →
      ∃ err, l.foldlM (fun cat e => appendConn cat (key e) (cn e)) cat = .error err := by
  intro l
  induction l with
  | nil =>
    rintro cat ⟨e, he, _⟩
    exact absurd he (List.not_mem_nil e)
  | cons e0 t ih =>
    rintro cat ⟨e, he, hnone⟩
    rw [List.foldlM_cons]
    cases hstep : appendConn cat (key e0) (cn e0) with
    | error err =>
      exact ⟨err, rfl⟩
    | ok cat1 =>
      have hdom := (appendConn_ok hstep).2.2
      have he' : e ∈ t := by
        rcases List.mem_cons.mp he with he | he
        · exfalso
          subst he
          unfold appendConn at hstep
          rw [hnone] at hstep
          exact absurd hstep (by simp)
        · exact he
      have hnone1 : dictGet? cat1 (key e) = none := by
        have h1 := hdom (key e)
        rw [hnone] at h1
        exact Option.not_isSome_iff_eq_none.mp (by simp [h1])
      obtain ⟨err, herr⟩ := ih cat1 ⟨e, he', hnone1⟩
      exact ⟨err, herr⟩

/-- C4: for every accepted input, each connection record `(A,B,line,dir)`
yields the forward entry `(B,line,dir)` in `A`'s connection list and the
inverse entry `(A,line,opposite dir)` in `B`'s. -/
theorem map_connections_symmetry (sl : List (String × Rat)) (cl : List ConnRec)
    (cat : Catalog) (h : Station.map_connections sl cl = .ok cat) :
    ∀ r ∈ cl, (r.2.1, r.2.2.1, r.2.2.2) ∈ connsOf cat r.1 ∧
      (r.1, r.2.2.1, opposite r.2.2.2) ∈ connsOf cat r.2.1 := by
  unfold Station.map_connections at h
  simp only [bind, Except.bind] at h
  cases h1 : cl.foldlM
      (fun cat e => appendConn cat e.1 (e.2.1, e.2.2.1, e.2.2.2))
      (Station.build_catalog sl) with
  | error err =>
    rw [h1] at h
    exact absurd h (fun hcon => Except.noConfusion hcon)
  | ok cat1 =>
    rw [h1] at h
    intro r hr
    have hmono1 : ∀ (c : Catalog) (e : ConnRec) (c' : Catalog),
        appendConn c e.1 (e.2.1, e.2.2.1, e.2.2.2) = .ok c' →
        ∀ s cc, cc ∈ connsOf c s → cc ∈ connsOf c' s :=
      fun c e c' hstep s cc hm => appendConn_mono hstep hm
    have hmono2 : ∀ (c : Catalog) (e : ConnRec) (c' : Catalog),
        appendConn c e.2.1 (e.1, e.2.2.1, opposite e.2.2.2) = .ok c' →
        ∀ s cc, cc ∈ connsOf c s → cc ∈ connsOf c' s :=
      fun c e c' hstep s cc hm => appendConn_mono hstep hm
    constructor
    · have hin1 : (r.2.1, r.2.2.1, r.2.2.2) ∈ connsOf cat1 r.1 :=
        foldlM_conn_adds (fun e => e.1) (fun e => (e.2.1, e.2.2.1, e.2.2.2))
          hmono1 (fun c e c' hstep => appendConn_adds hstep) cl _ cat1 h1 r hr
      exact foldlM_conn_mono hmono2 cl cat1 cat h r.1 _ hin1
    · exact foldlM_conn_adds (fun e => e.2.1)
        (fun e => (e.1, e.2.2.1, opposite e.2.2.2))
        hmono2 (fun c e c' hstep => appendConn_adds hstep) cl cat1 cat h r hr

/-- C4 (witness): loading `A –L1,N→ B` produces the forward entry at `A`
and the inverse southbound entry at `B`. -/
theorem map_connections_symmetry_witness :
    ("B", "L1", "N") ∈ connsOf
      [("A", { name := "A", delay_constant := 0, connections := [("B", "L1", "N")] }),
       ("B", { name := "B", delay_constant := 0, connections := [("A", "L1", "S")] })] "A" ∧
    ("A", "L1", opposite "N") ∈ connsOf
      [("A", { name := "A", delay_constant := 0, connections := [("B", "L1", "N")] }),
       ("B", { name := "B", delay_constant := 0, connections := [("A", "L1", "S")] })] "B" := by
  have h := map_connections_symmetry [("A", 0), ("B", 0)] [("A", "B", "L1", "N")]
    [("A", { name := "A", delay_constant := 0, connections := [("B", "L1", "N")] }),
     ("B", { name := "B", delay_constant := 0, connections := [("A", "L1", "S")] })]
    (by rfl) ("A", "B", "L1", "N") (List.mem_singleton.mpr rfl)
  exact h

/-- C7: whenever some connection record names a `from` or `to` station
absent from the loaded station list, `map_connections` fails with the
unknown-name error instead of producing a catalog. -/
theorem map_connections_referential_integrity (sl : List (String × Rat))
    (cl : List ConnRec)
    (h : ∃ r ∈ cl, r.1 ∉ sl.map Prod.fst ∨ r.2.1 ∉ sl.map Prod.fst) :
    ∃ err, Station.map_connections sl cl = .error err := by
  unfold Station.map_connections
  simp only [bind, Except.bind]
  cases h1 : cl.foldlM
      (fun cat e => appendConn cat e.1 (e.2.1, e.2.2.1, e.2.2.2))
      (Station.build_catalog sl) with
  | error err => exact ⟨err, rfl⟩
  | ok cat1 =>
    obtain ⟨r, hr, hbad⟩ := h
    rcases hbad with hbad | hbad
    · exfalso
      have hnone : dictGet? (Station.build_catalog sl) r.1 = none := by
        apply Option.not_isSome_iff_eq_none.mp
        intro hcon
        exact hbad ((build_catalog_isSome sl r.1).mp hcon)
      obtain ⟨err, herr⟩ := foldlM_append_error (fun e => e.1)
        (fun e => (e.2.1, e.2.2.1, e.2.2.2)) cl
        (Station.build_catalog sl) ⟨r, hr, hnone⟩
      rw [h1] at herr
      exact absurd herr (by simp)
    · have hnone : dictGet? cat1 r.2.1 = none := by
        have hdom := foldlM_conn_domain
          (fun c e c' hstep s => (appendConn_ok hstep).2.2 s) cl _ cat1 h1 r.2.1
        have hnone0 : dictGet? (Station.build_catalog sl) r.2.1 = none := by
          apply Option.not_isSome_iff_eq_none.mp
          intro hcon
          exact hbad ((build_catalog_isSome sl r.2.1).mp hcon)
        rw [hnone0] at hdom
        exact Option.not_isSome_iff_eq_none.mp (by simp [hdom])
      exact foldlM_append_error (fun e => e.2.1)
        (fun e => (e.1, e.2.2.1, opposite e.2.2.2)) cl cat1 ⟨r, hr, hnone⟩

/-- C7 (witness): a record whose `to` station `X` was never loaded makes
the load fail. -/
theorem map_connections_referential_integrity_witness :
    ∃ err, Station.map_connections [("A", 0)] [("A", "X", "L1", "N")] = .error err :=
  map_connections_referential_integrity [("A", 0)] [("A", "X", "L1", "N")]
    ⟨("A", "X", "L1", "N"), List.mem_singleton.mpr rfl, Or.inr (by decide)⟩

/-! ### Turn simulation lemmas -/

lemma simulateAux_get? (cat : Catalog) (oracle : Nat → Rat) :
    ∀ (ts : List Train) (k i : Nat),
      (simulateAux cat oracle k ts).get? i =
        (ts.get? i).map (fun t =>
          if delayOf cat t.station > oracle (k + i) then t else (t.move cat).1) := by
  intro ts
  induction ts with
  | nil =>
    intro k i
    simp [simulateAux]
  | cons t ts ih =>
    intro k i
    cases i with
    | zero =>
      simp [simulateAux]
    | succ j =>
      show (simulateAux cat oracle (k + 1) ts).get? j = _
      rw [ih (k + 1) j]
      have harith : k + 1 + j = k + (j + 1) := by omega
      rw [harith]
      rfl

/-- C3: in each turn every train draws exactly one uniform sample (the
`i`-th train reads `oracle i`); the train is skipped — left unchanged —
iff its sample is strictly below its current station's delay constant,
and otherwise `move` is invoked on it.  In particular with all delay
constants zero, every train is moved every turn. -/
theorem simulate_turn_delay_semantics (cat : Catalog) (trains : List Train)
    (oracle : Nat → Rat)
    (hstations : ∀ t ∈ trains, (dictGet? cat t.station).isSome = true)
    (horacle : ∀ i, 0 ≤ oracle i) :
    (∀ i t, trains.get? i = some t →
      (Train.simulate_turn cat trains oracle).get? i =
        some (if oracle i < delayOf cat t.station then t else (t.move cat).1)) ∧
    ((∀ p ∈ cat, p.2.delay_constant = 0) →
      Train.simulate_turn cat trains oracle = trains.map (fun t => (t.move cat).1)) := by
  constructor
  · intro i t ht
    unfold Train.simulate_turn
    rw [simulateAux_get? cat oracle trains 0 i, ht]
    simp only [Option.map_some', Nat.zero_add]
  · intro hzero
    unfold Train.simulate_turn
    have haux : ∀ (ts : List Train) (k : Nat),
        (∀ t ∈ ts, (dictGet? cat t.station).isSome = true) →
        simulateAux cat oracle k ts = ts.map (fun t => (t.move cat).1) := by
      intro ts
      induction ts with
      | nil =>
        intro k _
        simp [simulateAux]
      | cons t ts ih =>
        intro k hst
        have hdelay : delayOf cat t.station = 0 := by
          have hsome := hst t (List.mem_cons_self t ts)
          obtain ⟨st, hget⟩ := Option.isSome_iff_exists.mp hsome
          obtain ⟨pr, hfind, hsnd⟩ := Option.map_eq_some'.mp hget
          have hmem := List.mem_of_find?_eq_some hfind
          unfold delayOf
          rw [hget]
          simp only [Option.map_some', Option.getD_some]
          rw [← hsnd]
          exact hzero pr hmem
        have hcond : ¬ (delayOf cat t.station > oracle k) := by
          rw [hdelay]
          exact not_lt.mpr (horacle k)
        show (if delayOf cat t.station > oracle k then t else (t.move cat).1) ::
            simulateAux cat oracle (k + 1) ts = _
        rw [if_neg hcond, List.map_cons,
          ih (k + 1) (fun t' ht' => hst t' (List.mem_cons_of_mem t ht'))]
    exact haux trains 0 hstations

/-- A two-station zero-delay catalog used to exercise `simulate_turn`. -/
def catAB : Catalog :=
  [("A", { name := "A", delay_constant := 0, connections := [("B", "L1", "N")] }),
   ("B", { name := "B", delay_constant := 0, connections := [("A", "L1", "S")] })]

/-- A train on line `L1` at station `A`, heading north. -/
def trainA : Train := { name := 1, station := "A", line := "L1", course := "N" }

/-- C3 (witness): one zero-delay station pair, one train, zero samples:
the theorem applies and the train moves. -/
theorem simulate_turn_delay_semantics_witness :
    (∀ i t, [trainA].get? i = some t →
      (Train.simulate_turn catAB [trainA] (fun _ => 0)).get? i =
        some (if (fun _ => (0 : Rat)) i < delayOf catAB t.station then t
          else (t.move catAB).1)) ∧
    ((∀ p ∈ catAB, p.2.delay_constant = 0) →
      Train.simulate_turn catAB [trainA] (fun _ => 0) =
        [trainA].map (fun t => (t.move catAB).1)) :=
  simulate_turn_delay_semantics catAB [trainA] (fun _ => 0)
    (by decide) (fun i => le_refl 0)

/-! ### `Train.move` at the failing inputs of C2, C5, C6, and the
seeding behaviour of C9 -/

/-- The catalog loaded from the single record `(A, B, L1, N)`. -/
def catMoveBug : Catalog :=
  [("A", { name := "A", delay_constant := 0, connections := [("B", "L1", "N")] }),
   ("B", { name := "B", delay_constant := 0, connections := [("A", "L1", "S")] })]

/-- C2 (code evaluation at the failing input): in the catalog loaded
from `A –L1,N→ B`, no connection at `A` has line id `"B"`, yet a train
at `A` whose line is named `"B"` (course `S`) is moved to `B` with
success: the scan `self.line in connection and self.course in
connection` matches the tuple `("B","L1","N")` through its target
component and direction component instead of comparing the line id and
direction fields. -/
theorem move_membership_bug :
    Station.map_connections [("A", 0), ("B", 0)] [("A", "B", "L1", "N")] =
      .ok catMoveBug ∧
    (∀ c ∈ connsOf catMoveBug "A", c.2.1 ≠ "B") ∧
    Train.move { name := 1, station := "A", line := "B", course := "S" } catMoveBug =
      ({ name := 1, station := "B", line := "B", course := "N" }, true) :=
  ⟨rfl, by decide, rfl⟩

/-- The catalog loaded from the single record `(D, B, L2, N)`. -/
def catMoveFail : Catalog :=
  [("D", { name := "D", delay_constant := 0, connections := [("B", "L2", "N")] }),
   ("B", { name := "B", delay_constant := 0, connections := [("D", "L2", "S")] })]

/-- C6 (code evaluation at the failing input): station `D` has no
connection whose line id is `"B"` in either course, so the claim
requires `move` to return failure and leave the train in place; instead
the membership scan matches `("B","L2","N")` through its target and
direction components, the train is moved to `B` and `move` returns
success. -/
theorem move_failure_bug :
    Station.map_connections [("D", 0), ("B", 0)] [("D", "B", "L2", "N")] =
      .ok catMoveFail ∧
    (∀ c ∈ connsOf catMoveFail "D", c.2.1 ≠ "B") ∧
    Train.move { name := 1, station := "D", line := "B", course := "S" } catMoveFail =
      ({ name := 1, station := "B", line := "B", course := "N" }, true) :=
  ⟨rfl, by decide, rfl⟩

/-- Station `A` of the C5 scenario: its connections carry lines `L1`
and `B` — the latter shares its name with station `B`. -/
def stationA5 : Station :=
  { name := "A", delay_constant := 0,
    connections := [("B", "L1", "N"), ("C", "B", "N")] }

/-- The catalog loaded from records `(A,B,L1,N)` and `(A,C,B,N)` — the
second line is named `"B"`, like the station. -/
def catLineB : Catalog :=
  [("A", stationA5),
   ("B", { name := "B", delay_constant := 0, connections := [("A", "L1", "S")] }),
   ("C", { name := "C", delay_constant := 0, connections := [("A", "B", "S")] })]

/-- C5 (code evaluation at the failing input): a train seeded at `A` can
legitimately receive line `"B"` (it is among `A`'s line options), and
the invariant holds there; after one `move` the membership scan sends it
to station `B`, which has no connection on line `"B"` — the invariant is
not preserved by `Train.move`. -/
theorem train_on_line_invariant_bug :
    Station.map_connections [("A", 0), ("B", 0), ("C", 0)]
        [("A", "B", "L1", "N"), ("A", "C", "B", "N")] = .ok catLineB ∧
    "B" ∈ line_options stationA5 ∧
    (∃ c ∈ connsOf catLineB "A", c.2.1 = "B") ∧
    (Train.move { name := 1, station := "A", line := "B", course := "N" } catLineB).1.station
      = "B" ∧
    (∀ c ∈ connsOf catLineB "B", c.2.1 ≠ "B") :=
  ⟨rfl, by decide, ⟨("C", "B", "N"), by decide, rfl⟩, rfl, by decide⟩

/-- An `Option`-monad `mapM` fails as soon as any element fails. -/
lemma mapM_eq_none {α β : Type} {f : α → Option β} :
    ∀ {l : List α}, (∃ a ∈ l, f a = none) → l.mapM f = none := by
  intro l
  induction l with
  | nil =>
    rintro ⟨a, ha, _⟩
    exact absurd ha (List.not_mem_nil a)
  | cons a0 t ih =>
    rintro ⟨a, ha, hnone⟩
    rw [List.mapM_cons]
    cases h0 : f a0 with
    | none =>
      simp only [Option.bind_eq_bind, Option.none_bind]
    | some b =>
      have ha' : a ∈ t := by
        rcases List.mem_cons.mp ha with h | h
        · subst h
          rw [hnone] at h0
          exact absurd h0 (by simp)
        · exact h
      simp only [Option.bind_eq_bind, Option.some_bind, ih ⟨a, ha', hnone⟩,
        Option.none_bind]

/-- C9 (counterexample): the failure branch IS reachable — seeding one
train over a catalog whose only station has an empty connection list
makes the line selection draw from the empty set and the whole seeding
fail, instead of being handled by resampling or rejection. -/
theorem build_catalog_empty_choice_cex :
    connsOf [("A", { name := "A", delay_constant := 0, connections := [] })] "A" = [] ∧
    Train.build_catalog [("A", { name := "A", delay_constant := 0, connections := [] })] 1
      (fun _ => 0) (fun _ => 0) (fun _ => 0) = none :=
  ⟨rfl, rfl⟩

/-- C9 (amended): `Train.build_catalog` performs no guard at all: for
every catalog and train count, if the station chosen for some train has
an empty line-option list (in particular, zero connections), the line
selection from the empty set fails and seeding produces no catalog. -/
theorem build_catalog_no_guard (cat : Catalog) (count : Nat)
    (stationPick coursePick linePick : Nat → Nat)
    (h : ∃ n, n < count ∧ ∃ s st, pick (dictKeys cat) (stationPick n) = some s ∧
      dictGet? cat s = some st ∧ line_options st = []) :
    Train.build_catalog cat count stationPick coursePick linePick = none := by
  obtain ⟨n, hn, s, st, hpick, hget, hopts⟩ := h
  unfold Train.build_catalog
  apply mapM_eq_none
  refine ⟨n, List.mem_range.mpr hn, ?_⟩
  have hcourse : pick ["N", "S"] (coursePick n) =
      some (["N", "S"].get ⟨coursePick n % 2, by simp [Nat.mod_lt]⟩) := by
    unfold pick
    exact List.get?_eq_get (by simp [Nat.mod_lt])
  simp only [hpick, Option.bind_eq_bind, Option.some_bind, hcourse, hget, hopts]
  rfl

/-- C9 (witness of the amended claim): the concrete zero-connection
station instantiates the no-guard theorem. -/
theorem build_catalog_no_guard_witness :
    Train.build_catalog [("A", { name := "A", delay_constant := 0, connections := [] })] 1
      (fun _ => 0) (fun _ => 0) (fun _ => 0) = none :=
  build_catalog_no_guard _ 1 _ _ _
    ⟨0, Nat.zero_lt_one, "A", { name := "A", delay_constant := 0, connections := [] },
      rfl, rfl, rfl⟩

end Trains
